import Mathlib

/-!
Verification of the evaluation engine of the pyvespa repository.

The repository's evaluation core (`learntorank.evaluation`: the metric
classes `MatchRatio`, `Recall`, `ReciprocalRank`,
`NormalizedDiscountedCumulativeGain` and the entry points
`evaluate_query` / `evaluate`) is exercised by the notebooks under
`docs/sphinx/source`, but its implementation file is not part of this
source tree.  Every definition below that embeds that missing code is
therefore modelled from the specification (sections 3, 4, 6 and 7 of the
spec), faithful to its words, and each such definition says so in its
doc comment.  Scores and metric values are embedded as rationals (`ℚ`);
the logarithmic DCG discount forces real numbers (`ℝ`) for NDCG and the
standard deviation.
-/

namespace PyvespaEval

/-- Modelled from the spec (§3, LabeledQuery): one relevance judgment,
`{doc_id, relevance_score}` with the score defaulting to 1. -/
structure RelevantDoc where
  id : ℕ
  score : ℚ := 1
deriving DecidableEq, Repr

/-- Modelled from the spec (§3, LabeledQuery): a labeled query with its
identifier, query text and relevance judgments. -/
structure LabeledQuery where
  query_id : ℕ
  query : String
  relevant_docs : List RelevantDoc
deriving DecidableEq, Repr

/-- Modelled from the spec (§6): the response envelope of one query
execution: the ordered ranked ids plus the match side metadata. -/
structure QueryResponse where
  ranked_ids : List ℕ
  total_matched : ℕ
  collection_size : ℕ
deriving DecidableEq, Repr

/-- Is the document id `x` judged relevant by `rel`?  A doc is relevant
when it appears among the labeled `relevant_docs`. -/
def isRelevant (rel : List RelevantDoc) (x : ℕ) : Bool :=
  rel.any fun d => d.id == x

/-- Modelled from the spec (§4.1, MatchRatio):
`count_matched / collection_size`, defined to 0 when the collection size
is 0 rather than failing on division by zero. -/
def matchRatio (matched size : ℕ) : ℚ :=
  if size = 0 then 0 else (matched : ℚ) / (size : ℚ)

/-- Modelled from the spec (§4.1, Recall(at=k)):
`|relevant_docs ∩ top_k(ranked_docs)| / |relevant_docs|`, defined to 0
when `relevant_docs` is empty.  The intersection size is the number of
relevant docs whose id occurs in the first `k` ranked entries. -/
def recallAt (k : ℕ) (ranked : List ℕ) (rel : List RelevantDoc) : ℚ :=
  if rel = [] then 0
  else ((rel.countP fun d => (ranked.take k).contains d.id : ℕ) : ℚ) / (rel.length : ℚ)

/-- Modelled from the spec (§4.1, ReciprocalRank(at=k)):
`1 / rank_of_first_relevant_doc` with 1-based rank inside the top-`k`
window, and 0 when no relevant doc appears in the window. -/
def reciprocalRankAt (k : ℕ) (ranked : List ℕ) (rel : List RelevantDoc) : ℚ :=
  match (ranked.take k).findIdx? (fun x => isRelevant rel x) with
  | none => 0
  | some i => 1 / ((i : ℚ) + 1)

/-- C1: for every labeled query whose `relevant_docs` list is empty,
`Recall(at=k)` and `ReciprocalRank(at=k)` return 0 for every ranked
result list and every depth `k`; both are total functions, so no error
can be raised. -/
theorem metrics_zero_on_empty_relevant_docs (k : ℕ) (ranked : List ℕ) :
    recallAt k ranked [] = 0 ∧ reciprocalRankAt k ranked [] = 0 := by
  refine ⟨by simp [recallAt], ?_⟩
  have h : (ranked.take k).findIdx? (fun x => isRelevant [] x) = none :=
    List.findIdx?_eq_none_iff.2 fun x _ => by simp [isRelevant]
  simp [reciprocalRankAt, h]

/-- C7: `MatchRatio` returns `count_matched / collection_size` taken from
the query-response side metadata, and returns 0 instead of failing on
division by zero whenever the collection size is 0. -/
theorem matchRatio_spec (matched size : ℕ) :
    matchRatio matched 0 = 0 ∧
      (size ≠ 0 → matchRatio matched size = (matched : ℚ) / (size : ℚ)) := by
  exact ⟨by simp [matchRatio], fun h => by simp [matchRatio, h]⟩

/-- Witness for C7 at `matched = 3`, `size = 6`. -/
theorem matchRatio_spec_witness :
    matchRatio 3 0 = 0 ∧ matchRatio 3 6 = (3 : ℚ) / (6 : ℚ) :=
  ⟨(matchRatio_spec 3 6).1, (matchRatio_spec 3 6).2 (by decide)⟩

/-- C6: for a fixed ranked list and fixed `relevant_docs`,
`Recall(at=k)` is monotonically non-decreasing in the depth `k`. -/
theorem recallAt_mono (ranked : List ℕ) (rel : List RelevantDoc)
    (k1 k2 : ℕ) (h : k1 ≤ k2) :
    recallAt k1 ranked rel ≤ recallAt k2 ranked rel := by
  unfold recallAt
  by_cases hrel : rel = []
  · simp [hrel]
  · rw [if_neg hrel, if_neg hrel]
    have hcount : (rel.countP fun d => (ranked.take k1).contains d.id) ≤
        rel.countP fun d => (ranked.take k2).contains d.id := by
      refine List.countP_mono_left fun d _ hd => ?_
      have hmem : d.id ∈ ranked.take k1 := by
        simpa using hd
      have : d.id ∈ ranked.take k2 := List.take_subset_take_left ranked h hmem
      simpa using this
    have hlen : (0 : ℚ) ≤ (rel.length : ℚ) := by positivity
    exact div_le_div_of_nonneg_right (by exact_mod_cast hcount) hlen

/-- Witness for C6 at `ranked = [5, 7]`, one relevant doc `7`, depths
`1 ≤ 2`. -/
theorem recallAt_mono_witness :
    recallAt 1 [5, 7] [⟨7, 1⟩] ≤ recallAt 2 [5, 7] [⟨7, 1⟩] :=
  recallAt_mono [5, 7] [⟨7, 1⟩] 1 2 (by decide)

/-- C3: `ReciprocalRank(at=k)` equals 1 over the 1-based rank of the
first relevant document within the first `k` ranked entries, equals 0
when no relevant document appears there, and consequently always lies in
`{0} ∪ {1/1, ..., 1/k}`. -/
theorem reciprocalRankAt_first_relevant (k : ℕ) (ranked : List ℕ)
    (rel : List RelevantDoc) :
    ((∀ x ∈ ranked.take k, isRelevant rel x = false) →
        reciprocalRankAt k ranked rel = 0) ∧
    (∀ i (h : i < (ranked.take k).length),
        isRelevant rel ((ranked.take k).get ⟨i, h⟩) = true →
        (∀ j (hj : j < (ranked.take k).length), j < i →
            isRelevant rel ((ranked.take k).get ⟨j, hj⟩) = false) →
        reciprocalRankAt k ranked rel = 1 / ((i : ℚ) + 1)) ∧
    (reciprocalRankAt k ranked rel = 0 ∨
      ∃ i : ℕ, 1 ≤ i ∧ i ≤ k ∧ reciprocalRankAt k ranked rel = 1 / (i : ℚ)) := by
  refine ⟨fun hnone => ?_, fun i h hrel hfirst => ?_, ?_⟩
  · have h : (ranked.take k).findIdx? (fun x => isRelevant rel x) = none :=
      List.findIdx?_eq_none_iff.2 fun x hx => hnone x hx
    simp [reciprocalRankAt, h]
  · have hsome : (ranked.take k).findIdx? (fun x => isRelevant rel x) = some i := by
      refine List.findIdx?_eq_some_iff_getElem.2 ⟨h, ?_, fun j hj => ?_⟩
      · simp only [List.get_eq_getElem] at hrel
        exact hrel
      · have hj' := hfirst j (Nat.lt_trans hj h) hj
        simp only [List.get_eq_getElem] at hj'
        simp only [Bool.not_eq_true]
        exact hj'
    simp [reciprocalRankAt, hsome]
  · cases hfind : (ranked.take k).findIdx? (fun x => isRelevant rel x) with
    | none => exact Or.inl (by simp [reciprocalRankAt, hfind])
    | some i =>
        refine Or.inr ⟨i + 1, Nat.le_add_left 1 i, ?_, ?_⟩
        · have hi : i < (ranked.take k).length :=
            (List.findIdx?_eq_some_iff_getElem.1 hfind).1
          have : (ranked.take k).length ≤ k := by
            simp
          omega
        · have : reciprocalRankAt k ranked rel = 1 / ((i : ℚ) + 1) := by
            simp [reciprocalRankAt, hfind]
          rw [this]
          push_cast
          ring_nf

/-- Witness for C3 at `k = 2`, `ranked = [4, 7]`, relevant doc `7`: the
first relevant doc has rank 2, so the reciprocal rank is `1/2`. -/
theorem reciprocalRankAt_first_relevant_witness :
    reciprocalRankAt 2 [4, 7] [⟨7, 1⟩] = 1 / ((1 : ℚ) + 1) :=
  (reciprocalRankAt_first_relevant 2 [4, 7] [⟨7, 1⟩]).2.1 1 (by decide)
    (by decide) (by decide)

/-- The relevance judgments of the `evaluation.ipynb` scenario behind C5:
docs 0 and 3 are relevant with score 1. -/
def scenarioRelevantDocs : List RelevantDoc := [⟨0, 1⟩, ⟨3, 1⟩]

/-- C5: with relevant docs `{0, 3}`, a ranked result of `[0, 1, 2]`
(recall restriction to ids `[0, 1, 2]`) has `Recall@10 = 0.5`; and any
ranked result drawn from the restriction `[0, 1, 2, 3]` that contains
docs 0 and 3 and ranks doc 0 first has `Recall@10 = 1` and
`ReciprocalRank@10 = 1`. -/
theorem recall_restriction_scenarios :
    recallAt 10 [0, 1, 2] scenarioRelevantDocs = 1 / 2 ∧
    (∀ ranked : List ℕ, ranked.length ≤ 10 → 0 ∈ ranked → 3 ∈ ranked →
      ranked.head? = some 0 →
      recallAt 10 ranked scenarioRelevantDocs = 1 ∧
      reciprocalRankAt 10 ranked scenarioRelevantDocs = 1) := by
  constructor
  · simp [recallAt, scenarioRelevantDocs, List.countP_cons]
  · intro ranked hlen h0 h3 hhead
    have htake : ranked.take 10 = ranked := List.take_of_length_le hlen
    constructor
    · have hcount : (scenarioRelevantDocs.countP
          fun d => (ranked.take 10).contains d.id) = 2 := by
        rw [htake]
        simp [scenarioRelevantDocs, List.countP_cons, h0, h3]
      rw [recallAt, if_neg (by simp [scenarioRelevantDocs]), hcount]
      norm_num [scenarioRelevantDocs]
    · cases ranked with
      | nil => simp at hhead
      | cons a t =>
        have ha : a = 0 := by simpa using hhead
        subst ha
        unfold reciprocalRankAt
        rw [htake]
        have hfind : List.findIdx? (fun x => isRelevant scenarioRelevantDocs x)
            (0 :: t) = some 0 := by
          simp [List.findIdx?_cons, isRelevant, scenarioRelevantDocs]
        rw [hfind]
        norm_num

/-- Witness for C5 at the concrete ranked list `[0, 1, 2, 3]`. -/
theorem recall_restriction_scenarios_witness :
    recallAt 10 [0, 1, 2, 3] scenarioRelevantDocs = 1 ∧
      reciprocalRankAt 10 [0, 1, 2, 3] scenarioRelevantDocs = 1 :=
  recall_restriction_scenarios.2 [0, 1, 2, 3] (by decide) (by decide)
    (by decide) (by decide)

/-- Modelled from the spec (§4.1, NDCG): the log2 positional discount.
The gain at 1-based rank `r` is divided by `log2(r + 1)`; with 0-based
position `i` this is `1 / log2(i + 2)`. -/
noncomputable def discount (i : ℕ) : ℝ := 1 / Real.logb 2 ((i : ℝ) + 2)

/-- Discounted cumulative gain of a gain list whose head sits at the
0-based position `pos`. -/
noncomputable def dcgFrom : ℕ → List ℚ → ℝ
  | _, [] => 0
  | pos, g :: gs => (g : ℝ) * discount pos + dcgFrom (pos + 1) gs

/-- Discounted cumulative gain of a gain list starting at the top rank. -/
noncomputable def dcg (gains : List ℚ) : ℝ := dcgFrom 0 gains

/-- Modelled from the spec (§4.1, NDCG): the gain of a ranked document
id is its `relevance_score` when it is judged relevant and 0 otherwise. -/
def relScore (rel : List RelevantDoc) (x : ℕ) : ℚ :=
  match rel.find? (fun d => d.id == x) with
  | some d => d.score
  | none => 0

/-- The gain list of the top-`k` window of a ranked result. -/
def gainsOf (k : ℕ) (ranked : List ℕ) (rel : List RelevantDoc) : List ℚ :=
  (ranked.take k).map (relScore rel)

/-- Modelled from the spec (§4.1, NDCG): the relevance scores sorted
descending, the gain profile of the ideal ranking. -/
def idealScores (rel : List RelevantDoc) : List ℚ :=
  (rel.map (·.score)).insertionSort (· ≥ ·)

/-- Modelled from the spec (§4.1, NDCG): the ideal DCG normalizer,
the DCG of the best possible top-`k` gain profile. -/
noncomputable def idcg (k : ℕ) (rel : List RelevantDoc) : ℝ :=
  dcg ((idealScores rel).take k)

/-- Modelled from the spec (§4.1, NDCG): normalized discounted
cumulative gain at depth `k`. -/
noncomputable def ndcg (k : ℕ) (ranked : List ℕ) (rel : List RelevantDoc) : ℝ :=
  dcg (gainsOf k ranked rel) / idcg k rel

theorem discount_pos (i : ℕ) : 0 < discount i := by
  have hlog : 0 < Real.logb 2 ((i : ℝ) + 2) := by
    refine Real.logb_pos (by norm_num) ?_
    have : (0 : ℝ) ≤ (i : ℝ) := Nat.cast_nonneg i
    linarith
  exact one_div_pos.2 hlog

theorem discount_antitone {i j : ℕ} (h : i ≤ j) : discount j ≤ discount i := by
  have hlogi : 0 < Real.logb 2 ((i : ℝ) + 2) := by
    refine Real.logb_pos (by norm_num) ?_
    have : (0 : ℝ) ≤ (i : ℝ) := Nat.cast_nonneg i
    linarith
  have hle : Real.logb 2 ((i : ℝ) + 2) ≤ Real.logb 2 ((j : ℝ) + 2) := by
    refine Real.logb_le_logb_of_le (by norm_num) ?_ ?_
    · have : (0 : ℝ) ≤ (i : ℝ) := Nat.cast_nonneg i
      linarith
    · have : (i : ℝ) ≤ (j : ℝ) := by exact_mod_cast h
      linarith
  exact one_div_le_one_div_of_le hlogi hle

theorem dcgFrom_nonneg (l : List ℚ) (p : ℕ) (h : ∀ x ∈ l, 0 ≤ x) :
    0 ≤ dcgFrom p l := by
  induction l generalizing p with
  | nil => simp [dcgFrom]
  | cons g gs ih =>
      have hg : (0 : ℝ) ≤ (g : ℚ) := by
        exact_mod_cast h g (by simp)
      have := ih (p + 1) fun x hx => h x (by simp [hx])
      have hd := (discount_pos p).le
      simp only [dcgFrom]
      positivity

/-- DCG is monotone under a pointwise (zero-padded) bound between two
nonnegative gain lists. -/
theorem dcgFrom_mono_getD (a b : List ℚ) (p : ℕ)
    (hb : ∀ x ∈ b, 0 ≤ x) (hab : ∀ i, a.getD i 0 ≤ b.getD i 0)
    (ha : ∀ x ∈ a, 0 ≤ x) :
    dcgFrom p a ≤ dcgFrom p b := by
  induction a generalizing b p with
  | nil => exact dcgFrom_nonneg b p hb
  | cons x a' ih =>
      cases b with
      | nil =>
          have hx0 : x = 0 := le_antisymm (by simpa using hab 0) (ha x (by simp))
          have htail : dcgFrom (p + 1) a' ≤ dcgFrom (p + 1) ([] : List ℚ) := by
            refine ih [] (p + 1) (by simp) (fun i => by simpa using hab (i + 1))
              (fun y hy => ha y (by simp [hy]))
          simp only [dcgFrom, hx0] at *
          simpa using htail
      | cons y b' =>
          have hxy : x ≤ y := by simpa using hab 0
          have hhead : (x : ℝ) * discount p ≤ (y : ℝ) * discount p := by
            have : (x : ℝ) ≤ (y : ℝ) := by exact_mod_cast hxy
            exact mul_le_mul_of_nonneg_right this (discount_pos p).le
          have htail : dcgFrom (p + 1) a' ≤ dcgFrom (p + 1) b' := by
            refine ih b' (p + 1) (fun z hz => hb z (by simp [hz]))
              (fun i => by simpa using hab (i + 1))
              (fun z hz => ha z (by simp [hz]))
          simp only [dcgFrom]
          exact add_le_add hhead htail

/-- Inserting the head into its ordered place never decreases the DCG:
the decreasing discount rewards moving a larger gain forward. -/
theorem dcgFrom_cons_le_orderedInsert (x : ℚ) (s : List ℚ) (p : ℕ) :
    dcgFrom p (x :: s) ≤ dcgFrom p (s.orderedInsert (· ≥ ·) x) := by
  induction s generalizing p with
  | nil => simp [List.orderedInsert]
  | cons b t ih =>
      by_cases hxb : x ≥ b
      · have : (b :: t).orderedInsert (· ≥ ·) x = x :: b :: t := by
          simp [List.orderedInsert, hxb]
        rw [this]
      · have hlt : x < b := lt_of_not_ge hxb
        have hins : (b :: t).orderedInsert (· ≥ ·) x =
            b :: t.orderedInsert (· ≥ ·) x := by
          simp [List.orderedInsert, hxb]
        rw [hins]
        have hswap : (x : ℝ) * discount p + (b : ℝ) * discount (p + 1) ≤
            (b : ℝ) * discount p + (x : ℝ) * discount (p + 1) := by
          have hxb' : (x : ℝ) ≤ (b : ℝ) := by exact_mod_cast hlt.le
          have hd : discount (p + 1) ≤ discount p :=
            discount_antitone (Nat.le_succ p)
          nlinarith [mul_nonneg (sub_nonneg.2 hxb') (sub_nonneg.2 hd)]
        have hih : dcgFrom (p + 1) (x :: t) ≤
            dcgFrom (p + 1) (t.orderedInsert (· ≥ ·) x) := ih (p + 1)
        simp only [dcgFrom] at hih ⊢
        linarith

/-- Sorting the gains descending never decreases the DCG. -/
theorem dcgFrom_le_insertionSort (l : List ℚ) (p : ℕ) :
    dcgFrom p l ≤ dcgFrom p (l.insertionSort (· ≥ ·)) := by
  induction l generalizing p with
  | nil => simp
  | cons x t ih =>
      have h1 : dcgFrom p (x :: t) ≤ dcgFrom p (x :: t.insertionSort (· ≥ ·)) := by
        simp only [dcgFrom]
        exact add_le_add_left (ih (p + 1)) _
      have h2 : dcgFrom p (x :: t.insertionSort (· ≥ ·)) ≤
          dcgFrom p ((t.insertionSort (· ≥ ·)).orderedInsert (· ≥ ·) x) :=
        dcgFrom_cons_le_orderedInsert x (t.insertionSort (· ≥ ·)) p
      calc dcgFrom p (x :: t)
          ≤ dcgFrom p (x :: t.insertionSort (· ≥ ·)) := h1
        _ ≤ dcgFrom p ((t.insertionSort (· ≥ ·)).orderedInsert (· ≥ ·) x) := h2
        _ = dcgFrom p ((x :: t).insertionSort (· ≥ ·)) := by
              simp [List.insertionSort]

/-- `find?` is unaffected by erasing an element that does not satisfy
the search predicate. -/
theorem find?_erase_of_not {α : Type} [DecidableEq α] (l : List α) (a : α)
    (p : α → Bool) (hpa : p a = false) : (l.erase a).find? p = l.find? p := by
  induction l with
  | nil => simp
  | cons e t ih =>
      by_cases hea : e = a
      · subst hea
        rw [List.erase_cons_head]
        rw [List.find?_cons]
        simp [hpa]
      · rw [List.erase_cons_tail (by simp [hea])]
        rw [List.find?_cons, List.find?_cons]
        cases hpe : p e with
        | true => simp
        | false => simpa using ih

/-- Each positive gain of a duplicate-free id list is the score of its
own distinct relevant document, so at every positive threshold the gain
list has no more large entries than the judged score list. -/
theorem countP_gains_le_scores (ids : List ℕ) (rel : List RelevantDoc)
    (hids : ids.Nodup) (hrel : (rel.map (·.id)).Nodup) (c : ℚ) (hc : 0 < c) :
    (ids.map (relScore rel)).countP (fun v => decide (c ≤ v)) ≤
      (rel.map (·.score)).countP (fun v => decide (c ≤ v)) := by
  induction ids generalizing rel with
  | nil => simp
  | cons x ids' ih =>
      have hx : x ∉ ids' := (List.nodup_cons.1 hids).1
      have hids' : ids'.Nodup := (List.nodup_cons.1 hids).2
      rw [List.map_cons, List.countP_cons]
      cases hfind : rel.find? (fun d => d.id == x) with
      | none =>
          have hzero : relScore rel x = 0 := by simp [relScore, hfind]
          have : decide (c ≤ relScore rel x) = false := by
            simp [hzero, not_le, hc]
          rw [this]
          simpa using ih rel hids' hrel
      | some d =>
          have hds : relScore rel x = d.score := by simp [relScore, hfind]
          have hdid : d.id = x := by
            have := List.find?_some hfind
            simpa using this
          have hdmem : d ∈ rel := List.mem_of_find?_eq_some hfind
          by_cases hcd : c ≤ d.score
          · have hcnt : decide (c ≤ relScore rel x) = true := by
              simp [hds, hcd]
            have hsame : ids'.map (relScore rel) =
                ids'.map (relScore (rel.erase d)) := by
              refine List.map_congr_left fun y hy => ?_
              have hyx : y ≠ x := fun h => hx (h ▸ hy)
              have : (fun e => e.id == y) d = false := by
                simp [hdid, Ne.symm hyx]
              unfold relScore
              rw [find?_erase_of_not rel d _ this]
            have hrel' : ((rel.erase d).map (·.id)).Nodup :=
              (List.Sublist.map (·.id) (List.erase_sublist d rel)).nodup hrel
            have hihe := ih (rel.erase d) hids' hrel'
            have hperm : List.Perm (rel.map (·.score))
                (d.score :: (rel.erase d).map (·.score)) :=
              List.Perm.map (·.score) (List.perm_cons_erase hdmem)
            have hsd : decide (c ≤ d.score) = true := by simp [hcd]
            rw [hcnt, hsame, hperm.countP_eq, List.countP_cons, hsd]
            omega
          · have hcnt : decide (c ≤ relScore rel x) = false := by
              simp [hds, hcd]
            rw [hcnt]
            simpa using ih rel hids' hrel

/-- In two descending score lists, if every positive threshold is met by
at least as many entries of `b` as of `a`, then `b` dominates `a`
pointwise, with zero padding past either end. -/
theorem sorted_getD_le_of_countP_le (a b : List ℚ)
    (ha : a.Sorted (· ≥ ·)) (hb : b.Sorted (· ≥ ·))
    (hbn : ∀ x ∈ b, 0 ≤ x)
    (hcount : ∀ c : ℚ, 0 < c →
      a.countP (fun v => decide (c ≤ v)) ≤ b.countP (fun v => decide (c ≤ v)))
    (i : ℕ) : a.getD i 0 ≤ b.getD i 0 := by
  have hbge : 0 ≤ b.getD i 0 := by
    by_cases hib : i < b.length
    · have hbi : b.getD i 0 = b[i] := by
        simp [List.getElem?_eq_getElem hib]
      rw [hbi]
      exact hbn _ (List.getElem_mem hib)
    · have hnone : b[i]? = none := List.getElem?_eq_none (Nat.le_of_not_lt hib)
      simp [hnone]
  by_cases hc : a.getD i 0 ≤ 0
  · exact hc.trans hbge
  · push_neg at hc
    have hia : i < a.length := by
      by_contra hia
      have : a.getD i 0 = 0 := by
        simp [List.getElem?_eq_none (Nat.le_of_not_lt hia)]
      rw [this] at hc
      exact lt_irrefl 0 hc
    set c := a.getD i 0 with hcdef
    have hci : c = a[i] := by
      simp [hcdef, List.getElem?_eq_getElem hia]
    have hsorted := List.pairwise_iff_getElem.1 ha
    have htake : ∀ x ∈ a.take (i + 1), (fun v => decide (c ≤ v)) x = true := by
      intro x hx
      obtain ⟨j, hj, hxj⟩ := List.mem_iff_getElem.1 hx
      have hjlen : j < a.length := by
        have := hj
        simp only [List.length_take] at this
        omega
      have hji : j ≤ i := by
        have := hj
        simp only [List.length_take] at this
        omega
      have hget : x = a[j] := by
        rw [← hxj]
        simp
      have hcx : c ≤ x := by
        rw [hci, hget]
        rcases Nat.lt_or_ge j i with hlt | hge
        · exact hsorted j i hjlen hia hlt
        · have : j = i := Nat.le_antisymm hji hge
          subst this
          exact le_refl _
      simpa using hcx
    have hlen_take : (a.take (i + 1)).length = i + 1 := by
      simp [List.length_take]
      omega
    have hcountA : i + 1 ≤ a.countP fun v => decide (c ≤ v) := by
      have hfull : (a.take (i + 1)).countP (fun v => decide (c ≤ v)) = i + 1 := by
        rw [List.countP_eq_length.2 htake, hlen_take]
      have hsplit : a.countP (fun v => decide (c ≤ v)) =
          (a.take (i + 1)).countP (fun v => decide (c ≤ v)) +
            (a.drop (i + 1)).countP (fun v => decide (c ≤ v)) := by
        rw [← List.countP_append, List.take_append_drop]
      omega
    have hcb := hcount c hc
    have hib : i < b.length := by
      have := List.countP_le_length (p := fun v => decide (c ≤ v)) (l := b)
      omega
    have hbi : b.getD i 0 = b[i] := by
      simp [List.getElem?_eq_getElem hib]
    rw [hbi]
    by_contra hlt
    push_neg at hlt
    have hbsorted := List.pairwise_iff_getElem.1 hb
    have hdropzero : (b.drop i).countP (fun v => decide (c ≤ v)) = 0 := by
      refine List.countP_eq_zero.2 fun x hx => ?_
      obtain ⟨j, hj, hxj⟩ := List.mem_iff_getElem.1 hx
      have hjlen : i + j < b.length := by
        have := hj
        simp only [List.length_drop] at this
        omega
      have hget : x = b[i + j] := by
        rw [← hxj]
        simp
      have hxle : x ≤ b[i] := by
        rw [hget]
        rcases Nat.eq_zero_or_pos j with hj0 | hjpos
        · subst hj0
          simp
        · exact hbsorted i (i + j) hib hjlen (by omega)
      have : ¬ c ≤ x := not_le.2 (lt_of_le_of_lt hxle hlt)
      simpa using this
    have hsplitb : b.countP (fun v => decide (c ≤ v)) =
        (b.take i).countP (fun v => decide (c ≤ v)) +
          (b.drop i).countP (fun v => decide (c ≤ v)) := by
      rw [← List.countP_append, List.take_append_drop]
    have htb : (b.take i).countP (fun v => decide (c ≤ v)) ≤ i := by
      have h1 := List.countP_le_length (p := fun v => decide (c ≤ v)) (l := b.take i)
      have h2 : (b.take i).length ≤ i := by simp [List.length_take]
      omega
    omega

theorem getD_nonneg (l : List ℚ) (i : ℕ) (h : ∀ x ∈ l, 0 ≤ x) :
    0 ≤ l.getD i 0 := by
  by_cases hi : i < l.length
  · have : l.getD i 0 = l[i] := by simp [List.getElem?_eq_getElem hi]
    rw [this]
    exact h _ (List.getElem_mem hi)
  · have hnone : l[i]? = none := List.getElem?_eq_none (Nat.le_of_not_lt hi)
    simp [hnone]

theorem relScore_nonneg (rel : List RelevantDoc)
    (h : ∀ d ∈ rel, 0 ≤ d.score) (x : ℕ) : 0 ≤ relScore rel x := by
  unfold relScore
  cases hfind : rel.find? (fun d => d.id == x) with
  | none => simp
  | some d => exact h d (List.mem_of_find?_eq_some hfind)

theorem gainsOf_nonneg (k : ℕ) (ranked : List ℕ) (rel : List RelevantDoc)
    (h : ∀ d ∈ rel, 0 ≤ d.score) : ∀ x ∈ gainsOf k ranked rel, 0 ≤ x := by
  intro x hx
  obtain ⟨y, _, rfl⟩ := List.mem_map.1 hx
  exact relScore_nonneg rel h y

theorem idealScores_nonneg (rel : List RelevantDoc)
    (h : ∀ d ∈ rel, 0 ≤ d.score) : ∀ x ∈ idealScores rel, 0 ≤ x := by
  intro x hx
  have : x ∈ rel.map (·.score) := (List.mem_insertionSort _).1 hx
  obtain ⟨d, hd, rfl⟩ := List.mem_map.1 this
  exact h d hd

theorem idealScores_sorted (rel : List RelevantDoc) :
    (idealScores rel).Sorted (· ≥ ·) :=
  List.sorted_insertionSort _ _

/-- With duplicate-free relevance judgments, the gain looked up for a
judged document's id is that document's own score. -/
theorem relScore_of_mem (rel : List RelevantDoc) (d : RelevantDoc)
    (hrelid : (rel.map (·.id)).Nodup) (hd : d ∈ rel) :
    relScore rel d.id = d.score := by
  induction rel with
  | nil => cases hd
  | cons e t ih =>
      rcases List.mem_cons.1 hd with rfl | hdt
      · unfold relScore
        rw [List.find?_cons]
        simp
      · have hnodup : e.id ∉ t.map (·.id) ∧ (t.map (·.id)).Nodup := by
          have h := hrelid
          rw [List.map_cons, List.nodup_cons] at h
          exact h
        have hne : e.id ≠ d.id := by
          intro h
          exact hnodup.1 (h ▸ List.mem_map_of_mem (·.id) hdt)
        have hstep : (e.id == d.id) = false := by
          simp [hne]
        have hrec : relScore t d.id = d.score := ih hnodup.2 hdt
        unfold relScore at hrec ⊢
        rw [List.find?_cons, hstep]
        exact hrec

/-- The central inequality behind NDCG ≤ 1: with duplicate-free ranked
ids and judgments and nonnegative scores, the DCG of any top-`k` gain
profile is at most the ideal DCG. -/
theorem dcg_gainsOf_le_idcg (k : ℕ) (ranked : List ℕ) (rel : List RelevantDoc)
    (hranked : ranked.Nodup) (hrelid : (rel.map (·.id)).Nodup)
    (hnonneg : ∀ d ∈ rel, 0 ≤ d.score) :
    dcg (gainsOf k ranked rel) ≤ idcg k rel := by
  have hgn : ∀ x ∈ gainsOf k ranked rel, 0 ≤ x := gainsOf_nonneg k ranked rel hnonneg
  have hsn : ∀ x ∈ (gainsOf k ranked rel).insertionSort (· ≥ ·), 0 ≤ x := by
    intro x hx
    exact hgn x ((List.mem_insertionSort _).1 hx)
  have h1 : dcg (gainsOf k ranked rel) ≤
      dcg ((gainsOf k ranked rel).insertionSort (· ≥ ·)) :=
    dcgFrom_le_insertionSort (gainsOf k ranked rel) 0
  have hdom : ∀ i, ((gainsOf k ranked rel).insertionSort (· ≥ ·)).getD i 0 ≤
      (idealScores rel).getD i 0 := by
    refine sorted_getD_le_of_countP_le _ _ (List.sorted_insertionSort _ _)
      (idealScores_sorted rel) (idealScores_nonneg rel hnonneg) ?_
    intro c hc
    rw [(List.perm_insertionSort (· ≥ ·) (gainsOf k ranked rel)).countP_eq]
    have hi : (idealScores rel).countP (fun v => decide (c ≤ v)) =
        (rel.map (·.score)).countP (fun v => decide (c ≤ v)) := by
      unfold idealScores
      exact (List.perm_insertionSort (· ≥ ·) (rel.map (·.score))).countP_eq _
    rw [hi]
    exact countP_gains_le_scores (ranked.take k) rel
      ((List.take_sublist k ranked).nodup hranked) hrelid c hc
  have hpt : ∀ i, ((gainsOf k ranked rel).insertionSort (· ≥ ·)).getD i 0 ≤
      ((idealScores rel).take k).getD i 0 := by
    intro i
    by_cases hik : i < k
    · have : ((idealScores rel).take k).getD i 0 = (idealScores rel).getD i 0 := by
        simp [List.getElem?_take_of_lt hik]
      rw [this]
      exact hdom i
    · have hslen : ((gainsOf k ranked rel).insertionSort (· ≥ ·)).length ≤ k := by
        rw [List.length_insertionSort]
        unfold gainsOf
        rw [List.length_map, List.length_take]
        omega
      have hzero : ((gainsOf k ranked rel).insertionSort (· ≥ ·)).getD i 0 = 0 := by
        have hnone : ((gainsOf k ranked rel).insertionSort (· ≥ ·))[i]? = none :=
          List.getElem?_eq_none (by omega)
        simp [hnone]
      rw [hzero]
      exact getD_nonneg _ i fun x hx =>
        idealScores_nonneg rel hnonneg x (List.take_subset k _ hx)
  have h2 : dcg ((gainsOf k ranked rel).insertionSort (· ≥ ·)) ≤
      dcg ((idealScores rel).take k) :=
    dcgFrom_mono_getD _ _ 0
      (fun x hx => idealScores_nonneg rel hnonneg x (List.take_subset k _ hx))
      hpt hsn
  exact h1.trans h2

/-- The ideal ordering of the relevance judgments: documents sorted by
relevance score, descending. -/
def byScoreDesc (d e : RelevantDoc) : Prop := e.score ≤ d.score

instance : DecidableRel byScoreDesc := fun d e =>
  inferInstanceAs (Decidable (e.score ≤ d.score))

instance : IsTotal RelevantDoc byScoreDesc :=
  ⟨fun a b => le_total b.score a.score⟩

instance : IsTrans RelevantDoc byScoreDesc :=
  ⟨fun _ _ _ hab hbc => le_trans hbc hab⟩

/-- The document list sorted into ideal descending-relevance order. -/
def idealOrder (rel : List RelevantDoc) : List RelevantDoc :=
  rel.insertionSort byScoreDesc

/-- The scores of the ideally ordered documents are exactly the sorted
score list that normalizes NDCG. -/
theorem idealOrder_map_score (rel : List RelevantDoc) :
    (idealOrder rel).map (·.score) = idealScores rel := by
  refine List.eq_of_perm_of_sorted ?_ ?_ (idealScores_sorted rel)
  · refine ((List.perm_insertionSort byScoreDesc rel).map (·.score)).trans ?_
    unfold idealScores
    exact (List.perm_insertionSort (· ≥ ·) (rel.map (·.score))).symm
  · have hs := List.sorted_insertionSort byScoreDesc rel
    exact List.pairwise_map.2 hs

/-- C4: with duplicate-free ranked ids and judgments, (i) NDCG@k lies in
`[0, 1]` for nonnegative relevance scores, (ii) NDCG@k equals 1 when the
top-`k` ranked ids coincide with the ideal descending-relevance order
(for positive scores and a nonempty judgment list), and (iii) the ideal
DCG normalizer is unchanged under any permutation of the relevant docs,
in particular under permutations of docs with equal scores. -/
theorem ndcg_spec (k : ℕ) (ranked : List ℕ) (rel rel2 : List RelevantDoc)
    (hranked : ranked.Nodup) (hrelid : (rel.map (·.id)).Nodup)
    (hnonneg : ∀ d ∈ rel, 0 ≤ d.score) :
    (0 ≤ ndcg k ranked rel ∧ ndcg k ranked rel ≤ 1) ∧
    (0 < k → rel ≠ [] → (∀ d ∈ rel, 0 < d.score) →
      ranked.take k = ((idealOrder rel).map (·.id)).take k →
      ndcg k ranked rel = 1) ∧
    (rel.Perm rel2 → idcg k rel = idcg k rel2) := by
  have hd0 : 0 ≤ dcg (gainsOf k ranked rel) :=
    dcgFrom_nonneg _ 0 (gainsOf_nonneg k ranked rel hnonneg)
  have hidcg0 : 0 ≤ idcg k rel :=
    dcgFrom_nonneg _ 0 fun x hx =>
      idealScores_nonneg rel hnonneg x (List.take_subset k _ hx)
  have hle : dcg (gainsOf k ranked rel) ≤ idcg k rel :=
    dcg_gainsOf_le_idcg k ranked rel hranked hrelid hnonneg
  refine ⟨⟨div_nonneg hd0 hidcg0, ?_⟩, ?_, ?_⟩
  · rcases eq_or_lt_of_le hidcg0 with heq | hpos
    · unfold ndcg
      rw [← heq]
      simp
    · exact (div_le_one hpos).2 hle
  · intro hk hne hpos hmatch
    have hgains : gainsOf k ranked rel = (idealScores rel).take k := by
      unfold gainsOf
      rw [hmatch, ← List.map_take, List.map_map]
      have hcongr : ∀ d ∈ (idealOrder rel).take k,
          (relScore rel ∘ (·.id)) d = d.score := by
        intro d hd
        have hdrel : d ∈ rel := by
          have : d ∈ idealOrder rel := List.take_subset k _ hd
          exact (List.perm_insertionSort byScoreDesc rel).mem_iff.1 this
        exact relScore_of_mem rel d hrelid hdrel
      rw [List.map_congr_left hcongr]
      rw [List.map_take, idealOrder_map_score]
    have hlen : 0 < (idealScores rel).length := by
      unfold idealScores
      rw [List.length_insertionSort, List.length_map]
      exact List.length_pos.2 hne
    obtain ⟨s0, rest, hcons⟩ : ∃ s0 rest, idealScores rel = s0 :: rest := by
      cases h : idealScores rel with
      | nil => rw [h] at hlen; simp at hlen
      | cons s0 rest => exact ⟨s0, rest, rfl⟩
    have hs0pos : 0 < s0 := by
      have hmem : s0 ∈ idealScores rel := by rw [hcons]; simp
      have : s0 ∈ rel.map (·.score) := (List.mem_insertionSort _).1 hmem
      obtain ⟨d, hd, rfl⟩ := List.mem_map.1 this
      exact hpos d hd
    have hidcgpos : 0 < idcg k rel := by
      obtain ⟨m, rfl⟩ : ∃ m, k = m + 1 := ⟨k - 1, by omega⟩
      unfold idcg dcg
      rw [hcons, List.take_succ_cons]
      have h1 : 0 ≤ dcgFrom 1 (rest.take m) := by
        refine dcgFrom_nonneg _ 1 fun x hx => ?_
        have : x ∈ idealScores rel := by
          rw [hcons]
          exact List.mem_cons_of_mem s0 (List.take_subset m rest hx)
        exact idealScores_nonneg rel hnonneg x this
      have h2 : 0 < (s0 : ℝ) * discount 0 := by
        have : (0 : ℝ) < (s0 : ℝ) := by exact_mod_cast hs0pos
        exact mul_pos this (discount_pos 0)
      simp only [dcgFrom]
      linarith
    unfold ndcg
    rw [hgains]
    show idcg k rel / idcg k rel = 1
    exact div_self (ne_of_gt hidcgpos)
  · intro hperm
    have hsc : idealScores rel = idealScores rel2 := by
      refine List.eq_of_perm_of_sorted ?_ (idealScores_sorted rel)
        (idealScores_sorted rel2)
      unfold idealScores
      refine (List.perm_insertionSort (· ≥ ·) (rel.map (·.score))).trans ?_
      exact (hperm.map (·.score)).trans
        (List.perm_insertionSort (· ≥ ·) (rel2.map (·.score))).symm
    unfold idcg
    rw [hsc]

/-- Witness for C4: one relevant doc `⟨0, 1⟩`, ranked list `[0]`,
depth 1: NDCG is within bounds and, the ranked order matching the ideal
order, equals 1; the identity permutation keeps the normalizer. -/
theorem ndcg_spec_witness :
    (0 ≤ ndcg 1 [0] [⟨0, 1⟩] ∧ ndcg 1 [0] [⟨0, 1⟩] ≤ 1) ∧
      ndcg 1 [0] [⟨0, 1⟩] = 1 ∧ idcg 1 [⟨0, 1⟩] = idcg 1 [⟨0, 1⟩] := by
  have hpos : ∀ d ∈ ([⟨0, 1⟩] : List RelevantDoc), 0 < d.score := by
    intro d hd
    rw [List.mem_singleton.1 hd]
    show (0 : ℚ) < 1
    norm_num
  have hnonneg : ∀ d ∈ ([⟨0, 1⟩] : List RelevantDoc), 0 ≤ d.score :=
    fun d hd => (hpos d hd).le
  have h := ndcg_spec 1 [0] [⟨0, 1⟩] [⟨0, 1⟩] (by decide) (by decide) hnonneg
  exact ⟨h.1, h.2.1 (by norm_num) (by simp) hpos rfl, h.2.2 (List.Perm.refl _)⟩

/-- C8: every `at=k` metric only looks at the first `k` entries of the
ranked result — replacing the ranked list by its `k`-prefix changes
nothing — and when fewer than `k` hits come back the window is the whole
available list, scored without failing or padding. -/
theorem metrics_top_k_window (k : ℕ) (ranked : List ℕ) (rel : List RelevantDoc) :
    recallAt k ranked rel = recallAt k (ranked.take k) rel ∧
    reciprocalRankAt k ranked rel = reciprocalRankAt k (ranked.take k) rel ∧
    ndcg k ranked rel = ndcg k (ranked.take k) rel ∧
    (ranked.length ≤ k → ranked.take k = ranked) := by
  have htt : (ranked.take k).take k = ranked.take k := by
    rw [List.take_take, Nat.min_self]
  refine ⟨?_, ?_, ?_, fun h => List.take_of_length_le h⟩
  · unfold recallAt
    rw [htt]
  · unfold reciprocalRankAt
    rw [htt]
  · unfold ndcg gainsOf
    rw [htt]

/-- Witness for C8 at `k = 3`, `ranked = [1, 2]` (shorter than `k`),
one relevant doc `1`. -/
theorem metrics_top_k_window_witness :
    recallAt 3 [1, 2] [⟨1, 1⟩] = recallAt 3 (([1, 2] : List ℕ).take 3) [⟨1, 1⟩] ∧
    ([1, 2] : List ℕ).take 3 = [1, 2] :=
  ⟨(metrics_top_k_window 3 [1, 2] [⟨1, 1⟩]).1,
    (metrics_top_k_window 3 [1, 2] [⟨1, 1⟩]).2.2.2 (by decide)⟩

/-- Modelled from the spec (§4.2, §7): the error propagated when the
query execution of one (query, configuration) pair fails, tagged with
that pair's `query_id` and configuration name. -/
structure QueryExecutionError where
  query_id : ℕ
  model : String
deriving DecidableEq, Repr

/-- Modelled from the spec (§4.1): the rational-valued metric variants
of the record pipeline.  NDCG is real-valued (logarithmic discount) and
is treated by `ndcg` above. -/
inductive EvalMetric where
  | matchRatioMetric : EvalMetric
  | recall (depth : ℕ) : EvalMetric
  | reciprocalRank (depth : ℕ) : EvalMetric
deriving DecidableEq, Repr

/-- The column name a metric reports under, as in the notebooks
(`match_ratio`, `recall_10`, `reciprocal_rank_10`). -/
def metricName : EvalMetric → String
  | .matchRatioMetric => "match_ratio"
  | .recall d => "recall_" ++ toString d
  | .reciprocalRank d => "reciprocal_rank_" ++ toString d

/-- Score one metric against a query response and the judgments. -/
def scoreMetric (m : EvalMetric) (resp : QueryResponse)
    (rel : List RelevantDoc) : ℚ :=
  match m with
  | .matchRatioMetric => matchRatio resp.total_matched resp.collection_size
  | .recall d => recallAt d resp.ranked_ids rel
  | .reciprocalRank d => reciprocalRankAt d resp.ranked_ids rel

/-- Modelled from the spec (§3, MetricResult / per-query report row):
one flat record per (configuration, query, metric). -/
structure MetricRecord where
  model : String
  query_id : ℕ
  metric : String
  value : ℚ
deriving DecidableEq, Repr

/-- Modelled from the spec (§4.2, QueryEvaluator): evaluate one labeled
query under one named configuration through the external executor of
§6; a failed execution propagates a `QueryExecutionError` carrying the
pair's `query_id` and configuration name instead of returning records. -/
def evaluateQuery (exec : String → LabeledQuery → Except String QueryResponse)
    (metrics : List EvalMetric) (model : String) (q : LabeledQuery) :
    Except QueryExecutionError (List MetricRecord) :=
  match exec model q with
  | .error _ => .error ⟨q.query_id, model⟩
  | .ok resp =>
      .ok (metrics.map fun m =>
        ⟨model, q.query_id, metricName m, scoreMetric m resp q.relevant_docs⟩)

/-- Modelled from the spec (§4.3): evaluate every labeled query under
one configuration; the first failing pair aborts (default abort
policy). -/
def evaluateQueries (exec : String → LabeledQuery → Except String QueryResponse)
    (metrics : List EvalMetric) (model : String) :
    List LabeledQuery → Except QueryExecutionError (List MetricRecord)
  | [] => .ok []
  | q :: qs =>
      match evaluateQuery exec metrics model q with
      | .error e => .error e
      | .ok r =>
          match evaluateQueries exec metrics model qs with
          | .error e => .error e
          | .ok rs => .ok (r ++ rs)

/-- Modelled from the spec (§4.3, BatchEvaluator): evaluate labeled
queries × configurations into flat per-query records, or abort on the
first failing pair. -/
def evaluateRecords (exec : String → LabeledQuery → Except String QueryResponse)
    (metrics : List EvalMetric) :
    List String → List LabeledQuery → Except QueryExecutionError (List MetricRecord)
  | [], _ => .ok []
  | m :: ms, queries =>
      match evaluateQueries exec metrics m queries with
      | .error e => .error e
      | .ok r =>
          match evaluateRecords exec metrics ms queries with
          | .error e => .error e
          | .ok rs => .ok (r ++ rs)

/-- Arithmetic mean of the query dimension of one group. -/
def mean (xs : List ℚ) : ℚ := xs.sum / xs.length

/-- Median of one group: middle element of the sorted values, or the
average of the two middle elements for an even count. -/
def median (xs : List ℚ) : ℚ :=
  let s := xs.insertionSort (· ≤ ·)
  if xs.length % 2 = 1 then s.getD (xs.length / 2) 0
  else (s.getD (xs.length / 2 - 1) 0 + s.getD (xs.length / 2) 0) / 2

/-- Population variance of one group (denominator `n`, not `n - 1`). -/
def popVariance (xs : List ℚ) : ℚ :=
  (xs.map fun x => (x - mean xs) ^ 2).sum / xs.length

/-- Modelled from the spec (§4.3): population standard deviation, so a
single-element group has deviation 0, never NaN. -/
noncomputable def popStd (xs : List ℚ) : ℝ := Real.sqrt (popVariance xs)

/-- The distinct (configuration_name, metric_name) group keys occurring
in a record list, in first-occurrence order. -/
def groupKeys (records : List MetricRecord) : List (String × String) :=
  (records.map fun r => (r.model, r.metric)).dedup

/-- The per-query values of one (configuration_name, metric_name)
group. -/
def groupValues (records : List MetricRecord) (key : String × String) : List ℚ :=
  (records.filter fun r => r.model == key.1 && r.metric == key.2).map (·.value)

/-- Modelled from the spec (§3, EvaluationReport (b)): one aggregate row
per (configuration_name, metric_name) group with exactly the three
statistics mean, median and population standard deviation. -/
structure AggregateRow where
  model : String
  metric : String
  mean : ℚ
  median : ℚ
  std : ℝ

/-- Modelled from the spec (§4.3 step 3): group the records by
(configuration_name, metric_name) and compute the three statistics
across the query dimension. -/
noncomputable def aggregate (records : List MetricRecord) : List AggregateRow :=
  (groupKeys records).map fun key =>
    ⟨key.1, key.2, mean (groupValues records key),
      median (groupValues records key), popStd (groupValues records key)⟩

/-- Modelled from the spec (§4.3, §6): the `evaluate` entry point: the
flat per-query table when `per_query` is true, else the aggregate
table; a failing pair aborts the whole batch with its tagged error. -/
noncomputable def evaluate (exec : String → LabeledQuery → Except String QueryResponse)
    (metrics : List EvalMetric) (models : List String)
    (queries : List LabeledQuery) (perQuery : Bool) :
    Except QueryExecutionError (List MetricRecord ⊕ List AggregateRow) :=
  match evaluateRecords exec metrics models queries with
  | .error e => .error e
  | .ok recs => .ok (if perQuery then .inl recs else .inr (aggregate recs))

theorem evaluateQueries_error (exec : String → LabeledQuery → Except String QueryResponse)
    (metrics : List EvalMetric) (model : String) (qs : List LabeledQuery)
    (err : QueryExecutionError)
    (h : evaluateQueries exec metrics model qs = .error err) :
    ∃ q ∈ qs, (∃ e, exec model q = .error e) ∧ err = ⟨q.query_id, model⟩ := by
  induction qs with
  | nil => simp [evaluateQueries] at h
  | cons q qs ih =>
      simp only [evaluateQueries] at h
      cases hq : evaluateQuery exec metrics model q with
      | error e =>
          rw [hq] at h
          have he : e = err := by
            simpa using h
          have hexec : ∃ e2, exec model q = .error e2 := by
            unfold evaluateQuery at hq
            cases hx : exec model q with
            | error e2 => exact ⟨e2, rfl⟩
            | ok resp => rw [hx] at hq; simp at hq
          have herr : err = ⟨q.query_id, model⟩ := by
            unfold evaluateQuery at hq
            cases hx : exec model q with
            | error e2 =>
                rw [hx] at hq
                have : QueryExecutionError.mk q.query_id model = e := by
                  simpa using hq
                rw [← he, ← this]
            | ok resp => rw [hx] at hq; simp at hq
          exact ⟨q, by simp, hexec, herr⟩
      | ok r =>
          rw [hq] at h
          cases hqs : evaluateQueries exec metrics model qs with
          | error e =>
              rw [hqs] at h
              have he : e = err := by simpa using h
              obtain ⟨q2, hq2, hex, herr⟩ := ih (he ▸ hqs)
              exact ⟨q2, by simp [hq2], hex, herr⟩
          | ok rs => rw [hqs] at h; simp at h

theorem evaluateQueries_ok (exec : String → LabeledQuery → Except String QueryResponse)
    (metrics : List EvalMetric) (model : String) (qs : List LabeledQuery)
    (h : ∀ q ∈ qs, ∃ resp, exec model q = .ok resp) :
    ∃ recs, evaluateQueries exec metrics model qs = .ok recs ∧
      ∀ q ∈ qs, ∀ m ∈ metrics, ∃ r ∈ recs,
        r.model = model ∧ r.query_id = q.query_id ∧ r.metric = metricName m := by
  induction qs with
  | nil => exact ⟨[], rfl, by simp⟩
  | cons q qs ih =>
      obtain ⟨resp, hresp⟩ := h q (by simp)
      obtain ⟨recs, hrecs, hcomplete⟩ := ih fun q2 hq2 => h q2 (by simp [hq2])
      have hq : evaluateQuery exec metrics model q =
          .ok (metrics.map fun m =>
            ⟨model, q.query_id, metricName m, scoreMetric m resp q.relevant_docs⟩) := by
        unfold evaluateQuery
        rw [hresp]
      refine ⟨(metrics.map fun m =>
          ⟨model, q.query_id, metricName m, scoreMetric m resp q.relevant_docs⟩) ++ recs,
        ?_, ?_⟩
      · simp only [evaluateQueries]
        rw [hq, hrecs]
      · intro q2 hq2 m hm
        rcases List.mem_cons.1 hq2 with rfl | hq2t
        · refine ⟨⟨model, q2.query_id, metricName m, scoreMetric m resp q2.relevant_docs⟩,
            ?_, rfl, rfl, rfl⟩
          exact List.mem_append_left _ (List.mem_map_of_mem _ hm)
        · obtain ⟨r, hr, hprops⟩ := hcomplete q2 hq2t m hm
          exact ⟨r, List.mem_append_right _ hr, hprops⟩

theorem evaluateRecords_error (exec : String → LabeledQuery → Except String QueryResponse)
    (metrics : List EvalMetric) (models : List String) (queries : List LabeledQuery)
    (err : QueryExecutionError)
    (h : evaluateRecords exec metrics models queries = .error err) :
    ∃ model ∈ models, ∃ q ∈ queries,
      (∃ e, exec model q = .error e) ∧ err = ⟨q.query_id, model⟩ := by
  induction models with
  | nil => simp [evaluateRecords] at h
  | cons m ms ih =>
      simp only [evaluateRecords] at h
      cases hm : evaluateQueries exec metrics m queries with
      | error e =>
          rw [hm] at h
          have he : e = err := by simpa using h
          obtain ⟨q, hq, hex, herr⟩ := evaluateQueries_error exec metrics m queries err (he ▸ hm)
          exact ⟨m, by simp, q, hq, hex, herr⟩
      | ok r =>
          rw [hm] at h
          cases hms : evaluateRecords exec metrics ms queries with
          | error e =>
              rw [hms] at h
              have he : e = err := by simpa using h
              obtain ⟨m2, hm2, rest⟩ := ih (he ▸ hms)
              exact ⟨m2, by simp [hm2], rest⟩
          | ok rs => rw [hms] at h; simp at h

theorem evaluateRecords_ok (exec : String → LabeledQuery → Except String QueryResponse)
    (metrics : List EvalMetric) (models : List String) (queries : List LabeledQuery)
    (h : ∀ model ∈ models, ∀ q ∈ queries, ∃ resp, exec model q = .ok resp) :
    ∃ recs, evaluateRecords exec metrics models queries = .ok recs ∧
      ∀ model ∈ models, ∀ q ∈ queries, ∀ m ∈ metrics, ∃ r ∈ recs,
        r.model = model ∧ r.query_id = q.query_id ∧ r.metric = metricName m := by
  induction models with
  | nil => exact ⟨[], rfl, by simp⟩
  | cons mo ms ih =>
      obtain ⟨recs1, hrecs1, hc1⟩ :=
        evaluateQueries_ok exec metrics mo queries (h mo (by simp))
      obtain ⟨recs2, hrecs2, hc2⟩ := ih fun m2 hm2 => h m2 (by simp [hm2])
      refine ⟨recs1 ++ recs2, ?_, ?_⟩
      · simp only [evaluateRecords]
        rw [hrecs1, hrecs2]
      · intro model hmodel q hq m hm
        rcases List.mem_cons.1 hmodel with rfl | hmt
        · obtain ⟨r, hr, hprops⟩ := hc1 q hq m hm
          exact ⟨r, List.mem_append_left _ hr, hprops⟩
        · obtain ⟨r, hr, hprops⟩ := hc2 model hmt q hq m hm
          exact ⟨r, List.mem_append_right _ hr, hprops⟩

/-- C9: a failing query execution makes `evaluate_query` raise a
`QueryExecutionError` carrying that pair's `query_id` and
configuration name instead of returning a record; batch evaluation
returns a complete table (records for every configuration × query ×
metric) when every execution succeeds, and otherwise aborts with an
error identifying a failing pair — never a partial aggregate. -/
theorem query_execution_error_propagation
    (exec : String → LabeledQuery → Except String QueryResponse)
    (metrics : List EvalMetric) (models : List String)
    (queries : List LabeledQuery) :
    (∀ model q e, exec model q = .error e →
      evaluateQuery exec metrics model q = .error ⟨q.query_id, model⟩) ∧
    (∀ err, evaluateRecords exec metrics models queries = .error err →
      ∃ model ∈ models, ∃ q ∈ queries,
        (∃ e, exec model q = .error e) ∧ err = ⟨q.query_id, model⟩) ∧
    ((∀ model ∈ models, ∀ q ∈ queries, ∃ resp, exec model q = .ok resp) →
      ∃ recs, evaluateRecords exec metrics models queries = .ok recs ∧
        ∀ model ∈ models, ∀ q ∈ queries, ∀ m ∈ metrics, ∃ r ∈ recs,
          r.model = model ∧ r.query_id = q.query_id ∧ r.metric = metricName m) ∧
    (∀ err, evaluate exec metrics models queries false = .error err ↔
      evaluateRecords exec metrics models queries = .error err) := by
  refine ⟨?_, ?_, ?_, ?_⟩
  · intro model q e he
    unfold evaluateQuery
    rw [he]
  · exact fun err h => evaluateRecords_error exec metrics models queries err h
  · exact fun h => evaluateRecords_ok exec metrics models queries h
  · intro err
    unfold evaluate
    cases hr : evaluateRecords exec metrics models queries with
    | error e => simp
    | ok recs => simp

/-- Witness for C9: an executor failing on query id 7 under model
`"m"`, and a total executor for the success side. -/
theorem query_execution_error_propagation_witness :
    evaluateQuery (fun _ _ => .error "boom") [] "m" ⟨7, "q", []⟩ =
      .error ⟨7, "m"⟩ ∧
    ∃ recs, evaluateRecords (fun _ _ => .ok ⟨[], 0, 0⟩) [] ["m"] [⟨7, "q", []⟩] =
        .ok recs ∧
      ∀ model ∈ ["m"], ∀ q ∈ [(⟨7, "q", []⟩ : LabeledQuery)],
        ∀ m ∈ ([] : List EvalMetric), ∃ r ∈ recs,
          r.model = model ∧ r.query_id = q.query_id ∧ r.metric = metricName m := by
  constructor
  · exact (query_execution_error_propagation (fun _ _ => .error "boom") []
      ["m"] [⟨7, "q", []⟩]).1 "m" ⟨7, "q", []⟩ "boom" rfl
  · exact (query_execution_error_propagation (fun _ _ => .ok ⟨[], 0, 0⟩) []
      ["m"] [⟨7, "q", []⟩]).2.2.1 (fun model _ q _ => ⟨⟨[], 0, 0⟩, rfl⟩)

/-- The two labeled queries of the `evaluation.ipynb` scenario, each
with two relevant docs. -/
def scenarioQueries : List LabeledQuery :=
  [⟨0, "Intrauterine virus infections and congenital heart disease",
      [⟨0, 1⟩, ⟨3, 1⟩]⟩,
   ⟨1, "Clinical and immunologic studies in identical twins discordant for lupus",
      [⟨1, 1⟩, ⟨5, 1⟩]⟩]

/-- Two competing ranking configurations for the scenario. -/
def scenarioModels : List String := ["model_a", "model_b"]

/-- A deterministic stand-in for the external query executor of §6. -/
def scenarioExec : String → LabeledQuery → Except String QueryResponse :=
  fun _ q => .ok ⟨[q.query_id, 3], 2, 10⟩

/-- C2: with `per_query` false, `evaluate` returns the aggregate table:
records grouped by (configuration_name, metric_name) — the group keys
are exactly the pairs occurring in the records — each group reporting
exactly mean, median and population standard deviation over the query
dimension; a single-element group has standard deviation 0, not NaN;
and in the two-queries × two-configurations scenario every group is
computed over exactly 2 query values. -/
theorem evaluate_aggregate_spec :
    (∀ (records : List MetricRecord) (k1 k2 : String),
        (k1, k2) ∈ groupKeys records ↔
          ∃ r ∈ records, r.model = k1 ∧ r.metric = k2) ∧
    (∀ records : List MetricRecord, ∀ row ∈ aggregate records,
        row.mean = mean (groupValues records (row.model, row.metric)) ∧
        row.median = median (groupValues records (row.model, row.metric)) ∧
        row.std = popStd (groupValues records (row.model, row.metric))) ∧
    (∀ x : ℚ, popStd [x] = 0) ∧
    (∀ (exec : String → LabeledQuery → Except String QueryResponse)
        (metrics : List EvalMetric) (models : List String)
        (queries : List LabeledQuery) (recs : List MetricRecord),
        evaluateRecords exec metrics models queries = .ok recs →
        evaluate exec metrics models queries false = .ok (.inr (aggregate recs))) ∧
    ((evaluateRecords scenarioExec [.recall 10] scenarioModels
          scenarioQueries).toOption.map
        (fun recs => ((groupKeys recs).length,
          (groupKeys recs).map fun key => (groupValues recs key).length)) =
      some (2, [2, 2])) := by
  refine ⟨?_, ?_, ?_, ?_, ?_⟩
  · intro records k1 k2
    constructor
    · intro hk
      rw [groupKeys, List.mem_dedup] at hk
      obtain ⟨r, hr, hkey⟩ := List.mem_map.1 hk
      have h1 : r.model = k1 := congrArg Prod.fst hkey
      have h2 : r.metric = k2 := congrArg Prod.snd hkey
      exact ⟨r, hr, h1, h2⟩
    · rintro ⟨r, hr, h1, h2⟩
      rw [groupKeys, List.mem_dedup]
      refine List.mem_map.2 ⟨r, hr, ?_⟩
      rw [h1, h2]
  · intro records row hrow
    obtain ⟨key, _, hkeyrow⟩ := List.mem_map.1 hrow
    obtain ⟨k1, k2⟩ := key
    rw [← hkeyrow]
    exact ⟨rfl, rfl, rfl⟩
  · intro x
    have hvar : popVariance [x] = 0 := by
      simp [popVariance, mean]
    rw [popStd, hvar]
    simp
  · intro exec metrics models queries recs h
    unfold evaluate
    rw [h]
    rfl
  · decide

/-- Witness for C2: the group-key characterization fires on a concrete
one-record table and a concrete singleton group has deviation 0. -/
theorem evaluate_aggregate_spec_witness :
    ("m", "x") ∈ groupKeys [⟨"m", 0, "x", 1⟩] ∧ popStd [(5 : ℚ)] = 0 :=
  ⟨(evaluate_aggregate_spec.1 [⟨"m", 0, "x", 1⟩] "m" "x").2
      ⟨⟨"m", 0, "x", 1⟩, by simp, rfl, rfl⟩,
    evaluate_aggregate_spec.2.2.1 5⟩

/-- Modelled from the spec (§4.2, §6) and the query notebook: a backend
document, carrying the value of its id field and its query score. -/
structure CorpusDoc where
  id : ℕ
  score : ℚ
deriving DecidableEq, Repr

/-- Ranking order of the backend: larger query score first. -/
def byQueryScoreDesc (a b : CorpusDoc) : Prop := b.score ≤ a.score

instance : DecidableRel byQueryScoreDesc := fun a b =>
  inferInstanceAs (Decidable (b.score ≤ a.score))

/-- Modelled from the spec (§4.2): `send_query` with a `recall`
restriction `(field, allowed ids)` constrains the matched set to the
documents whose id-field value lies in the allowed list, then ranks
them and returns at most `hits` of them. -/
def sendQueryWithRecall (corpus : List CorpusDoc) (hits : ℕ)
    (allowed : List ℕ) : List CorpusDoc :=
  ((corpus.filter fun d => allowed.contains d.id).insertionSort
      byQueryScoreDesc).take hits

/-- C10: under a recall restriction every returned hit has its id-field
value inside the allowed id list, so the ranked list handed to the
metrics only holds documents from that list. -/
theorem sendQueryWithRecall_only_allowed (corpus : List CorpusDoc)
    (hits : ℕ) (allowed : List ℕ) :
    ∀ d ∈ sendQueryWithRecall corpus hits allowed, d.id ∈ allowed := by
  intro d hd
  have h1 : d ∈ (corpus.filter fun d =>
      allowed.contains d.id).insertionSort byQueryScoreDesc :=
    List.take_subset hits _ hd
  have h2 : d ∈ corpus.filter fun d => allowed.contains d.id :=
    (List.mem_insertionSort _).1 h1
  have h3 := List.of_mem_filter h2
  simpa using h3

/-- Witness for C10: a two-document corpus restricted to id 2 returns
the document with id 2, whose id is in the allowed list. -/
theorem sendQueryWithRecall_only_allowed_witness :
    (⟨2, 1⟩ : CorpusDoc).id ∈ [2] :=
  sendQueryWithRecall_only_allowed [⟨1, 5⟩, ⟨2, 1⟩] 10 [2] ⟨2, 1⟩ (by decide)

end PyvespaEval
